import Mathlib

/-!
# Verification of the staticimp template/entry-processing core

Shallow embedding of the placeholder rendering engine (`src/rendertemplate.rs`),
the base85 codec and the entry-processing pipeline (`src/staticimp.rs`),
with theorems settling the specification claims about them.

Strings are modelled as `List Char`; bytes as `Nat` (values `< 256`);
Rust `u64` arithmetic carries an explicit `% 2^64`; fallible Rust code
returns `Except`/`Option`.  External crates (chrono date formatting, md5,
sha256, slug, the markdown-table builder and std UTF-8 conversion) are
modelled as parameters, since their code is not part of this repository.
-/

namespace Staticimp

/-- Convert a string literal to the `List Char` representation used throughout. -/
def lstr (s : String) : List Char := s.data

/-- The char `{` (written by code point to keep it out of string literals). -/
def leftBrace : Char := Char.ofNat 123

/-- The char `}` (written by code point to keep it out of string literals). -/
def rightBrace : Char := Char.ofNat 125

/-- Models Rust `str::starts_with` (first argument is the pattern). -/
def startsWith : List Char → List Char → Bool
  | [], _ => true
  | _ :: _, [] => false
  | p :: ps, c :: cs => p == c && startsWith ps cs

/-- Models Rust `str::split_once(sep)`: split at the first occurrence of `sep`,
returning the text before and after it, or `none` when `sep` is absent. -/
def splitOnce (sep : Char) : List Char → Option (List Char × List Char)
  | [] => none
  | c :: cs =>
    if c = sep then some ([], cs)
    else (splitOnce sep cs).map (fun p => (c :: p.1, p.2))

/-- Association-list lookup; models `HashMap::get` (keys are unique). -/
def lookupA (m : List (List Char × List Char)) (k : List Char) : Option (List Char) :=
  match m with
  | [] => none
  | (k', v) :: rest => if k' = k then some v else lookupA rest k

/-- Association-list insert-or-overwrite; models `HashMap::insert`. -/
def insertA (m : List (List Char × List Char)) (k v : List Char) :
    List (List Char × List Char) :=
  match m with
  | [] => [(k, v)]
  | (k', v') :: rest => if k' = k then (k, v) :: rest else (k', v') :: insertA rest k v

/-- Count occurrences of a char in a string (used to state dot-counting claims). -/
def countChar (c : Char) (l : List Char) : Nat := l.count c

/-! ## rendertemplate.rs : tokens and the `SimpleParser` tokenizer -/

/-- `SimpleToken` from `rendertemplate.rs`: `Literal` raw text, `Placeholder`
(braces stripped), `Rendered` owned output text, `Unterminated` trailing
never-closed placeholder. -/
inductive SimpleToken where
  | Literal (s : List Char)
  | Placeholder (s : List Char)
  | Rendered (s : List Char)
  | Unterminated (s : List Char)
deriving DecidableEq, Repr

namespace SimpleToken

/-- `SimpleToken::is_placeholder`. -/
def isPlaceholderTok : SimpleToken → Bool
  | Placeholder _ => true
  | _ => false

/-- `SimpleToken::raw_ref`: the token text including non-display text. -/
def raw_ref : SimpleToken → List Char
  | Literal s | Placeholder s | Unterminated s | Rendered s => s

/-- `SimpleToken::display_ref`: `Literal`/`Rendered` show their text,
`Placeholder`/`Unterminated` display as empty. -/
def display_ref : SimpleToken → List Char
  | Literal s => s
  | Rendered s => s
  | Placeholder _ => []
  | Unterminated _ => []

end SimpleToken

/-- Models Rust `str::find(char)`: index of the first occurrence. -/
def findChar (target : Char) : List Char → Option Nat
  | [] => none
  | c :: rest => if c = target then some 0 else (findChar target rest).map (· + 1)

/-- One step of `SimpleParser::next` (`rendertemplate.rs:835-867`): returns the
next token and the remaining text.  `chunk`/`chunk_skip`/`rest_skip` of the
source become `take`/`drop` index arithmetic on the char list. -/
def parseNext (text : List Char) : Option (SimpleToken × List Char) :=
  match text with
  | [] => none
  | c :: _ =>
    if c = leftBrace then
      match findChar rightBrace text with
      | some i => some (.Placeholder ((text.take i).drop 1), (text.drop i).drop 1)
      | none => some (.Unterminated (text.drop 1), [])
    else
      match findChar leftBrace text with
      | some i => some (.Literal (text.take i), text.drop i)
      | none => some (.Literal text, [])

theorem findChar_cons_ne {target c : Char} (l : List Char) (h : ¬ c = target) :
    findChar target (c :: l) = (findChar target l).map (· + 1) := by
  simp [findChar, h]

theorem parseNext_length {text : List Char} {tok : SimpleToken} {rest : List Char}
    (h : parseNext text = some (tok, rest)) : rest.length < text.length := by
  match text with
  | [] => simp [parseNext] at h
  | c :: cs =>
    simp only [parseNext] at h
    split at h
    · split at h
      · simp only [Option.some.injEq, Prod.mk.injEq] at h
        rw [← h.2]
        simp only [List.length_drop, List.length_cons]
        omega
      · simp only [Option.some.injEq, Prod.mk.injEq] at h
        rw [← h.2]
        simp
    · rename_i hc
      split at h
      · rename_i i hf
        rw [findChar_cons_ne cs hc] at hf
        simp only [Option.some.injEq, Prod.mk.injEq] at h
        match hg : findChar leftBrace cs with
        | some j =>
          rw [hg] at hf
          simp only [Option.map_some', Option.some.injEq] at hf
          rw [← h.2]
          simp only [List.length_drop, List.length_cons]
          omega
        | none => rw [hg] at hf; simp at hf
      · simp only [Option.some.injEq, Prod.mk.injEq] at h
        rw [← h.2]
        simp

/-- The full tokenizer: iterate `parseNext` to exhaustion
(the `Iterator` impl of `SimpleParser`). -/
def tokenize (text : List Char) : List SimpleToken :=
  match h : parseNext text with
  | none => []
  | some (tok, rest) =>
    have : rest.length < text.length := parseNext_length h
    tok :: tokenize rest
termination_by text.length

/-! ## rendertemplate.rs : placeholder rendering (`render_str`) -/

/-- A resolver: `Render<&str, Option<Cow<str>>>` — maps a placeholder name to an
optional value. -/
def Resolver := List Char → Option (List Char)

/-- `RenderPlaceholder::render_placeholder` (`rendertemplate.rs:364-377`):
replace a `Placeholder` token whose resolution yields a value by an owned
`Rendered` token; pass every other token (and unresolved placeholders)
through unchanged. -/
def render_placeholder (r : Resolver) (tok : SimpleToken) : SimpleToken :=
  if tok.isPlaceholderTok then
    match r tok.raw_ref with
    | some v => .Rendered v
    | none => tok
  else tok

/-- `render_str` (`rendertemplate.rs:883-893`): tokenize, map placeholders
through the resolver, and concatenate the display text of all tokens
(`collect_display`). -/
def render_str (text : List Char) (r : Resolver) : List Char :=
  ((tokenize text).map (render_placeholder r)).foldl
    (fun acc tok => acc ++ tok.display_ref) []

/-! ## Spec-side tokenizer (from the spec's scanning rule, for claim C2) -/

/-- Modelled from the spec: scan for the next `{`; text before it is a Literal.
At a `{`, scan for the next `}`; the text between (exclusive of both braces)
is a Placeholder.  If no closing `}` is found before the string ends,
everything after the `{` becomes a single Unterminated token and the
sequence ends.  A `}` with no preceding open `{` is ordinary literal text. -/
def specTokenize (t : List Char) : List SimpleToken :=
  if t = [] then []
  else
    let pre := t.takeWhile (· != leftBrace)
    let post := t.dropWhile (· != leftBrace)
    let lead := if pre = [] then [] else [SimpleToken.Literal pre]
    if post = [] then lead
    else
      let afterBrace := post.tail
      let name := afterBrace.takeWhile (· != rightBrace)
      let rest := afterBrace.dropWhile (· != rightBrace)
      if rest = [] then lead ++ [SimpleToken.Unterminated afterBrace]
      else lead ++ (SimpleToken.Placeholder name :: specTokenize rest.tail)
termination_by t.length
decreasing_by
  have h1 : (t.dropWhile (· != leftBrace)).length ≤ t.length :=
    (List.dropWhile_sublist _).length_le
  have h2 : ((t.dropWhile (· != leftBrace)).tail.dropWhile (· != rightBrace)).length ≤
      (t.dropWhile (· != leftBrace)).tail.length :=
    (List.dropWhile_sublist _).length_le
  have h3 : ((t.dropWhile (· != leftBrace)).tail).length ≤ t.length := by
    have := List.length_tail (t.dropWhile (· != leftBrace))
    omega
  have h5 : 0 < ((t.dropWhile (· != leftBrace)).tail.dropWhile (· != rightBrace)).length :=
    List.length_pos.mpr (by assumption)
  have := List.length_tail ((t.dropWhile (· != leftBrace)).tail.dropWhile (· != rightBrace))
  omega

theorem findChar_none {tg : Char} {l : List Char} (h : findChar tg l = none) :
    l.takeWhile (· != tg) = l ∧ l.dropWhile (· != tg) = [] := by
  induction l with
  | nil => simp
  | cons c cs ih =>
    by_cases hc : c = tg
    · simp [findChar, hc] at h
    · rw [findChar_cons_ne cs hc] at h
      have h' : findChar tg cs = none := by
        match hg : findChar tg cs with
        | none => rfl
        | some j => rw [hg] at h; simp at h
      have hb : (c != tg) = true := by simp [hc]
      simp [List.takeWhile_cons, List.dropWhile_cons, hb, (ih h').1, (ih h').2]

theorem findChar_some {tg : Char} {l : List Char} {i : Nat} (h : findChar tg l = some i) :
    l.take i = l.takeWhile (· != tg) ∧ l.drop i = l.dropWhile (· != tg) ∧
      ∃ r, l.drop i = tg :: r := by
  induction l generalizing i with
  | nil => simp [findChar] at h
  | cons c cs ih =>
    by_cases hc : c = tg
    · have : i = 0 := by simpa [findChar, hc] using h.symm
      subst this
      have hb : (c != tg) = false := by simp [hc]
      subst hc
      simp [List.takeWhile_cons, List.dropWhile_cons, hb]
    · rw [findChar_cons_ne cs hc] at h
      match hg : findChar tg cs with
      | none => rw [hg] at h; simp at h
      | some j =>
        rw [hg] at h
        simp only [Option.map_some', Option.some.injEq] at h
        subst h
        have hb : (c != tg) = true := by simp [hc]
        obtain ⟨ht, hd, r, hr⟩ := ih hg
        exact ⟨by simp [List.takeWhile_cons, hb, ht],
               by simp [List.dropWhile_cons, hb, hd],
               r, by simpa using hr⟩

/-- Unfolding equation for `tokenize`. -/
theorem tokenize_unfold (text : List Char) :
    tokenize text =
      match parseNext text with
      | none => []
      | some (tok, rest) => tok :: tokenize rest := by
  rw [tokenize]
  split <;> rename_i h
  · rw [h]
  · conv_rhs => rw [h]

theorem tokenize_nil : tokenize [] = [] := by
  rw [tokenize_unfold]; rfl

lemma leftBrace_ne_rightBrace : ¬ leftBrace = rightBrace := by decide

/-- After an opening brace the tokenizer emits either a `Placeholder` (text up
to the next closing brace) or a final `Unterminated` token. -/
theorem tokenize_cons_brace (ab : List Char) :
    tokenize (leftBrace :: ab) =
      match ab.dropWhile (· != rightBrace) with
      | [] => [SimpleToken.Unterminated ab]
      | _ :: r =>
        SimpleToken.Placeholder (ab.takeWhile (· != rightBrace)) :: tokenize r := by
  rw [tokenize_unfold]
  have hout : parseNext (leftBrace :: ab) =
      match findChar rightBrace (leftBrace :: ab) with
      | some i =>
        some (.Placeholder (((leftBrace :: ab).take i).drop 1),
              ((leftBrace :: ab).drop i).drop 1)
      | none => some (.Unterminated ab, []) := by
    simp [parseNext]
  rw [hout, findChar_cons_ne ab leftBrace_ne_rightBrace]
  match hg : findChar rightBrace ab with
  | none =>
    obtain ⟨_, hd⟩ := findChar_none hg
    simp [hd, tokenize_nil]
  | some j =>
    obtain ⟨ht, hd, r, hr⟩ := findChar_some hg
    have hw : ab.dropWhile (· != rightBrace) = rightBrace :: r := hd.symm.trans hr
    simp only [Option.map_some', hw, List.take_succ_cons, List.drop_succ_cons]
    rw [hr]
    simp [ht]

/-- Outside a placeholder the tokenizer emits the literal run up to the next
opening brace and continues at that brace. -/
theorem tokenize_cons_nonbrace (c : Char) (cs : List Char) (hc : ¬ c = leftBrace) :
    tokenize (c :: cs) =
      SimpleToken.Literal ((c :: cs).takeWhile (· != leftBrace)) ::
        tokenize ((c :: cs).dropWhile (· != leftBrace)) := by
  rw [tokenize_unfold]
  have hout : parseNext (c :: cs) =
      match findChar leftBrace (c :: cs) with
      | some i => some (.Literal ((c :: cs).take i), (c :: cs).drop i)
      | none => some (.Literal (c :: cs), []) := by
    simp [parseNext, hc]
  rw [hout]
  match hg : findChar leftBrace (c :: cs) with
  | none =>
    obtain ⟨ht, hd⟩ := findChar_none hg
    simp [ht, hd, tokenize_nil]
  | some i =>
    obtain ⟨ht, hd, r, hr⟩ := findChar_some hg
    simp [ht, hd]

theorem dropWhile_head_false {p : Char → Bool} {l : List Char} {b : Char} {r : List Char}
    (h : l.dropWhile p = b :: r) : p b = false := by
  induction l with
  | nil => simp at h
  | cons x xs ih =>
    rw [List.dropWhile_cons] at h
    by_cases hx : p x = true
    · exact ih (by simpa [hx] using h)
    · rw [if_neg hx] at h
      injection h with h1 _
      subst h1
      simpa using hx

/-- The source tokenizer (`SimpleParser`) follows exactly the spec's scanning
rule (`specTokenize`). -/
theorem tokenize_eq_specTokenize (t : List Char) : tokenize t = specTokenize t := by
  match t with
  | [] => rw [tokenize_nil, specTokenize]; simp
  | c :: cs =>
    by_cases hc : c = leftBrace
    · subst hc
      rw [tokenize_cons_brace, specTokenize]
      have hpre : (leftBrace :: cs).takeWhile (· != leftBrace) = [] := by
        simp [List.takeWhile_cons]
      have hpost : (leftBrace :: cs).dropWhile (· != leftBrace) = leftBrace :: cs := by
        simp [List.dropWhile_cons]
      match hr : cs.dropWhile (· != rightBrace) with
      | [] => simp [hpre, hpost, hr]
      | x :: r =>
        have hlen : r.length < cs.length + 1 := by
          have := (List.dropWhile_sublist (· != rightBrace) (l := cs)).length_le
          rw [hr] at this
          simp only [List.length_cons] at this
          omega
        have ih := tokenize_eq_specTokenize r
        simp [hpre, hpost, hr, ih]
    · rw [tokenize_cons_nonbrace c cs hc, specTokenize]
      have hb : (c != leftBrace) = true := by simp [hc]
      have hpre : (c :: cs).takeWhile (· != leftBrace) = c :: cs.takeWhile (· != leftBrace) := by
        simp [List.takeWhile_cons, hb]
      have hpost : (c :: cs).dropWhile (· != leftBrace) = cs.dropWhile (· != leftBrace) := by
        simp [List.dropWhile_cons, hb]
      match hp : cs.dropWhile (· != leftBrace) with
      | [] => simp [hpre, hpost, hp, tokenize_nil]
      | b :: ab =>
        have hbrace : b = leftBrace := by
          have := dropWhile_head_false hp
          simpa using this
        subst hbrace
        rw [hpost, hp, tokenize_cons_brace]
        match hr : ab.dropWhile (· != rightBrace) with
        | [] => simp [hpre, hpost, hp, hr]
        | x :: r =>
          have hlen : r.length < cs.length + 1 := by
            have h1 := (List.dropWhile_sublist (· != leftBrace) (l := cs)).length_le
            rw [hp] at h1
            have h2 := (List.dropWhile_sublist (· != rightBrace) (l := ab)).length_le
            rw [hr] at h2
            simp only [List.length_cons] at h1 h2
            omega
          have ih := tokenize_eq_specTokenize r
          simp [hpre, hpost, hp, hr, ih]
termination_by t.length

/-! ## Claim C1: render output as concatenation over tokens -/

/-- Modelled from the spec: the text a single token contributes to the render
output — a Literal contributes its text, a Placeholder contributes the
resolver's value (or nothing when resolution yields no value), a Rendered
token its produced value, and an Unterminated token contributes nothing. -/
def tokenContribution (r : Resolver) : SimpleToken → List Char
  | .Literal s => s
  | .Placeholder name => (r name).getD []
  | .Rendered s => s
  | .Unterminated _ => []

theorem display_render_placeholder (r : Resolver) (tok : SimpleToken) :
    (render_placeholder r tok).display_ref = tokenContribution r tok := by
  cases tok with
  | Placeholder name =>
    simp only [render_placeholder, SimpleToken.isPlaceholderTok, SimpleToken.raw_ref,
      tokenContribution]
    match r name with
    | some v => simp [SimpleToken.display_ref]
    | none => simp [SimpleToken.display_ref]
  | Literal s => rfl
  | Rendered s => rfl
  | Unterminated s => rfl

theorem foldl_display_append (r : Resolver) (toks : List SimpleToken) (acc : List Char) :
    (toks.map (render_placeholder r)).foldl (fun a tok => a ++ tok.display_ref) acc =
      acc ++ (toks.map (tokenContribution r)).flatten := by
  induction toks generalizing acc with
  | nil => simp
  | cons tok rest ih =>
    simp only [List.map_cons, List.foldl_cons]
    rw [ih, display_render_placeholder]
    simp [List.append_assoc]

theorem tokenize_step {text : List Char} {tok : SimpleToken} {rest : List Char}
    (h : parseNext text = some (tok, rest)) : tokenize text = tok :: tokenize rest := by
  rw [tokenize_unfold, h]

/-- C1: for every template string and every resolver, `render_str` produces the
concatenation, in token order, of the literal text runs and the
resolver-produced values: each placeholder token whose resolution yields a
value is replaced by that value, each placeholder whose resolution yields no
value contributes nothing, and an unterminated trailing placeholder
contributes nothing (it is never echoed verbatim). -/
theorem spec_C1_render_concatenation (text : List Char) (r : Resolver) :
    render_str text r = ((tokenize text).map (tokenContribution r)).flatten := by
  unfold render_str
  simpa using foldl_display_append r (tokenize text) []

/-- C2: the tokenizer yields tokens in source order by the spec's scanning
rule (`specTokenize`): text before the next opening brace is a Literal; at an
opening brace, the text up to the next closing brace is a Placeholder (so an
empty placeholder is a Placeholder with empty name); with no closing brace
everything after the opener becomes one final Unterminated token; a closing
brace with no preceding opener is ordinary literal text; no escapes exist. -/
theorem spec_C2_tokenizer_rule (t : List Char) : tokenize t = specTokenize t :=
  tokenize_eq_specTokenize t

/-! ## staticimp.rs : NewEntry and its placeholder resolver -/

/-- `ImpError` (the variants the modelled core can produce). -/
inductive ImpError where
  | BadRequest (msg : List Char)
  | InternalError (msg : List Char)
deriving DecidableEq, Repr

/-- `SerializationFormat` (json or yaml). -/
inductive SerializationFormat where
  | Json
  | Yaml
deriving DecidableEq, Repr

/-- `NewEntry` (`staticimp.rs:1264-1282`): per-request entry context.
`uid`, `timestamp_str`, project id, branch, field map and request params are
carried verbatim; the chrono formatting of the creation time
(`NewEntry::render_date`, an external crate call) is modelled by the
function field `render_date` (so `timestamp` itself need not be modelled). -/
structure NewEntry where
  uid : List Char
  timestamp_str : List Char
  render_date : List Char → List Char
  project_id : List Char
  branch : List Char
  fields : List (List Char × List Char)
  params : List (List Char × List Char)

/-- The `Render<&str, Option<Cow<str>>>` impl for `&NewEntry`
(`staticimp.rs:1398-1431`): `@`-prefixed names are special generated values,
dotted names look up entry fields or request params, anything else is
unresolved. -/
def NewEntry.render (e : NewEntry) (placeholder : List Char) : Option (List Char) :=
  if startsWith (lstr "@") placeholder then
    some (if placeholder = lstr "@id" then e.uid
      else if placeholder = lstr "@timestamp" then e.timestamp_str
      else if startsWith (lstr "@date:") placeholder then e.render_date (placeholder.drop 6)
      else if startsWith (lstr "@branch") placeholder then e.branch
      else [])
  else
    match splitOnce '.' placeholder with
    | some (lhs, rhs) =>
      if lhs = lstr "fields" then lookupA e.fields rhs
      else if lhs = lstr "params" then lookupA e.params rhs
      else none
    | none => none

theorem startsWith_append (p l : List Char) : startsWith p (p ++ l) = true := by
  induction p with
  | nil => rfl
  | cons c cs ih => simp [startsWith, ih]

theorem splitOnce_not_mem {c : Char} {l : List Char} (h : c ∉ l) : splitOnce c l = none := by
  induction l with
  | nil => rfl
  | cons x xs ih =>
    have hx : ¬ x = c := fun hxc => h (hxc ▸ List.mem_cons_self x xs)
    simp [splitOnce, hx, ih (fun hm => h (List.mem_cons_of_mem x hm))]

theorem splitOnce_first {c : Char} {pre rhs : List Char} (h : c ∉ pre) :
    splitOnce c (pre ++ c :: rhs) = some (pre, rhs) := by
  induction pre with
  | nil => simp [splitOnce]
  | cons x xs ih =>
    have hx : ¬ x = c := fun hxc => h (hxc ▸ List.mem_cons_self x xs)
    simp [splitOnce, hx, ih (fun hm => h (List.mem_cons_of_mem x hm))]

/-- C4: resolution of `@`-prefixed placeholder names on a `NewEntry`:
`@id` yields the entry's unique id, `@timestamp` the pre-rendered
creation-time string, `@date:<fmt>` the creation time re-formatted with
`<fmt>`, any name starting with `@branch` the target branch, and every other
`@`-prefixed name resolves to the empty string (a produced value, distinct
from an unresolved placeholder). -/
theorem spec_C4_at_names (e : NewEntry) :
    (NewEntry.render e (lstr "@id") = some e.uid)
  ∧ (NewEntry.render e (lstr "@timestamp") = some e.timestamp_str)
  ∧ (∀ fmt, NewEntry.render e (lstr "@date:" ++ fmt) = some (e.render_date fmt))
  ∧ (∀ suffix, NewEntry.render e (lstr "@branch" ++ suffix) = some e.branch)
  ∧ (∀ p, startsWith (lstr "@") p = true → p ≠ lstr "@id" → p ≠ lstr "@timestamp" →
      startsWith (lstr "@date:") p = false → startsWith (lstr "@branch") p = false →
      NewEntry.render e p = some []) := by
  refine ⟨by simp [NewEntry.render, startsWith, lstr], by simp [NewEntry.render, startsWith, lstr], ?_, ?_, ?_⟩
  · intro fmt
    have h1 : startsWith (lstr "@") (lstr "@date:" ++ fmt) = true := by
      simp [startsWith, lstr]
    have h2 : (lstr "@date:" ++ fmt) ≠ lstr "@id" := by
      intro h
      have := congrArg (List.take 2) h
      simp [lstr] at this
    have h3 : (lstr "@date:" ++ fmt) ≠ lstr "@timestamp" := by
      intro h
      have := congrArg (List.take 2) h
      simp [lstr] at this
    have h4 : startsWith (lstr "@date:") (lstr "@date:" ++ fmt) = true :=
      startsWith_append _ _
    have h5 : (lstr "@date:" ++ fmt).drop 6 = fmt := by
      have : (lstr "@date:").length = 6 := by rfl
      rw [← this, List.drop_left]
    simp only [NewEntry.render, h1, if_pos rfl, if_neg h2, if_neg h3, h4, if_pos rfl, h5]
    simp
  · intro suffix
    have h1 : startsWith (lstr "@") (lstr "@branch" ++ suffix) = true := by
      simp [startsWith, lstr]
    have h2 : (lstr "@branch" ++ suffix) ≠ lstr "@id" := by
      intro h
      have := congrArg (List.take 2) h
      simp [lstr] at this
    have h3 : (lstr "@branch" ++ suffix) ≠ lstr "@timestamp" := by
      intro h
      have := congrArg (List.take 2) h
      simp [lstr] at this
    have h4 : startsWith (lstr "@date:") (lstr "@branch" ++ suffix) = false := by
      simp [startsWith, lstr]
    have h5 : startsWith (lstr "@branch") (lstr "@branch" ++ suffix) = true :=
      startsWith_append _ _
    simp only [NewEntry.render, h1, if_pos rfl, if_neg h2, if_neg h3, h4, h5]
    simp
  · intro p h0 h1 h2 h3 h4
    simp only [NewEntry.render, h0, if_pos rfl, if_neg h1, if_neg h2, h3, h4]
    simp

/-- A concrete `NewEntry` used as evaluation input for witnesses and
counterexamples: it has a field literally named `x.y`. -/
def sampleEntry : NewEntry :=
  { uid := lstr "uid0"
  , timestamp_str := lstr "ts0"
  , render_date := fun _ => []
  , project_id := lstr "p"
  , branch := lstr "main"
  , fields := [(lstr "x.y", lstr "v")]
  , params := [] }

/-- C4 witness: an `@`-name that matches none of the special forms resolves
to the empty string on a concrete entry. -/
theorem spec_C4_at_names_witness : NewEntry.render sampleEntry (lstr "@other") = some [] :=
  (spec_C4_at_names sampleEntry).2.2.2.2 (lstr "@other") (by decide) (by decide) (by decide)
    (by decide) (by decide)

/-- C5 counterexample: the claim says a name with more than one `.` is
unresolved, but `fields.x.y` (two dots) resolves whenever the field map has a
key literally named `x.y` — the resolver splits at the first dot only. -/
theorem spec_C5_counterexample :
    countChar '.' (lstr "fields.x.y") = 2 ∧
      NewEntry.render sampleEntry (lstr "fields.x.y") = some (lstr "v") := by
  constructor
  · decide
  · decide

/-- C5 (amended): a non-`@` name resolves only when it contains at least one
`.`; it is split at the FIRST dot, the left segment `fields` (resp. `params`)
looks the remainder — which may itself contain dots — up in the field map
(resp. request parameters), any other left segment is unresolved, and a name
with no dot is unresolved. -/
theorem spec_C5_first_dot (e : NewEntry) :
    (∀ rhs, NewEntry.render e (lstr "fields." ++ rhs) = lookupA e.fields rhs)
  ∧ (∀ rhs, NewEntry.render e (lstr "params." ++ rhs) = lookupA e.params rhs)
  ∧ (∀ p, startsWith (lstr "@") p = false → countChar '.' p = 0 →
      NewEntry.render e p = none)
  ∧ (∀ lhs rhs, startsWith (lstr "@") (lhs ++ '.' :: rhs) = false →
      countChar '.' lhs = 0 → lhs ≠ lstr "fields" → lhs ≠ lstr "params" →
      NewEntry.render e (lhs ++ '.' :: rhs) = none) := by
  refine ⟨?_, ?_, ?_, ?_⟩
  · intro rhs
    have h0 : startsWith (lstr "@") (lstr "fields." ++ rhs) = false := by
      simp [startsWith, lstr]
    have hs : splitOnce '.' (lstr "fields." ++ rhs) = some (lstr "fields", rhs) := by
      have : lstr "fields." ++ rhs = lstr "fields" ++ '.' :: rhs := by simp [lstr]
      rw [this]
      exact splitOnce_first (by decide)
    simp [NewEntry.render, h0, hs]
  · intro rhs
    have h0 : startsWith (lstr "@") (lstr "params." ++ rhs) = false := by
      simp [startsWith, lstr]
    have hs : splitOnce '.' (lstr "params." ++ rhs) = some (lstr "params", rhs) := by
      have : lstr "params." ++ rhs = lstr "params" ++ '.' :: rhs := by simp [lstr]
      rw [this]
      exact splitOnce_first (by decide)
    have hne : ¬ (lstr "params" = lstr "fields") := by decide
    simp [NewEntry.render, h0, hs, hne]
  · intro p h0 hdot
    have hs : splitOnce '.' p = none :=
      splitOnce_not_mem (List.count_eq_zero.mp hdot)
    simp [NewEntry.render, h0, hs]
  · intro lhs rhs h0 hdot hf hp
    have hs : splitOnce '.' (lhs ++ '.' :: rhs) = some (lhs, rhs) :=
      splitOnce_first (List.count_eq_zero.mp hdot)
    simp [NewEntry.render, h0, hs, hf, hp]

/-- C5 amended-claim witness: a dotted name whose left segment is neither
`fields` nor `params` is unresolved on a concrete entry. -/
theorem spec_C5_first_dot_witness :
    NewEntry.render sampleEntry (lstr "foo" ++ '.' :: lstr "bar") = none :=
  (spec_C5_first_dot sampleEntry).2.2.2 (lstr "foo") (lstr "bar") (by decide) (by decide)
    (by decide) (by decide)

/-! ## staticimp.rs : the base85 codec (`staticimp.rs:308-435`) -/

namespace base85

/-- The RFC1924 85-symbol alphabet (`staticimp.rs:316`). -/
def chars : List Char :=
  lstr "0123456789ABCDEFGHIJKLMNOPQRSTUVWXYZabcdefghijklmnopqrstuvwxyz!#$%&()*+-;<=>?@^_`\x7b|\x7d~"

/-- Big-endian base-`base` digits of `v`, `n` of them, most significant first
(the `(0..n).rev().map(|i| v / base.pow(i) % base)` pattern of the source;
`base = 85` for symbols, `base = 256` for `u64::to_be_bytes`). -/
def beDigits (base n v : Nat) : List Nat :=
  ((List.range n).reverse).map (fun i => v / base ^ i % base)

/-- `u64::from_be_bytes`: big-endian byte-list to number (padding the source
applies before conversion only adds leading zero bytes, which do not change
the value). -/
def bytesToNat (l : List Nat) : Nat := l.foldl (fun a b => a * 256 + b) 0

/-- The encoder's output-length computation (`staticimp.rs:322-327`):
5 chars per 4 bytes, a partial 4-byte chunk adds one more char than bytes. -/
def outLen (n : Nat) : Nat :=
  5 * (n / 4) + (if n % 4 ≠ 0 then n % 4 + 1 else 0)

/-- The encoder loop (`staticimp.rs:331-356`): full 8-byte chunks become 10
symbols; a non-empty remainder becomes `outLen % 10` symbols of its padded
64-bit value.  Returns symbol values (`< 85`); `encode` maps them through
the alphabet. -/
def encodeSyms (nrem : Nat) : List Nat → List Nat
  | b0 :: b1 :: b2 :: b3 :: b4 :: b5 :: b6 :: b7 :: rest =>
    beDigits 85 10 (bytesToNat [b0, b1, b2, b3, b4, b5, b6, b7]) ++ encodeSyms nrem rest
  | [] => []
  | l => beDigits 85 nrem (bytesToNat l)

/-- `base85::encode` (`staticimp.rs:315-361`). -/
def encode (value : List Nat) : List Char :=
  (encodeSyms (outLen value.length % 10) value).map (fun d => chars.getD d ' ')

/-- The decoder's symbol table (`staticimp.rs:382-412`): ascii check plus the
byte-range match, yielding the symbol value or `none` for any other char. -/
def charIndex (ch : Char) : Option Nat :=
  if ch.toNat ≤ 127 then
    let c := ch.toNat
    if 48 ≤ c ∧ c ≤ 57 then some (c - 48)
    else if 65 ≤ c ∧ c ≤ 90 then some (c - 65 + 10)
    else if 97 ≤ c ∧ c ≤ 122 then some (c - 97 + 36)
    else if c = 33 then some 62
    else if c = 35 then some 63
    else if c = 36 then some 64
    else if c = 37 then some 65
    else if c = 38 then some 66
    else if c = 40 then some 67
    else if c = 41 then some 68
    else if c = 42 then some 69
    else if c = 43 then some 70
    else if c = 45 then some 71
    else if c = 59 then some 72
    else if c = 60 then some 73
    else if c = 61 then some 74
    else if c = 62 then some 75
    else if c = 63 then some 76
    else if c = 64 then some 77
    else if c = 94 then some 78
    else if c = 95 then some 79
    else if c = 96 then some 80
    else if c = 123 then some 81
    else if c = 124 then some 82
    else if c = 125 then some 83
    else if c = 126 then some 84
    else none
  else none

/-- One decoder loop iteration (`staticimp.rs:381-424`): non-alphabet chars
are skipped; an alphabet char is folded into the 64-bit accumulator
(wrapping, hence the `% 2^64`), and every 10th symbol flushes 8 bytes. -/
def decodeStep (st : Nat × Nat × List Nat) (ch : Char) : Nat × Nat × List Nat :=
  match charIndex ch with
  | none => st
  | some d =>
    let buf := (st.1 * 85 + d) % 2 ^ 64
    let count := st.2.1 + 1
    if count = 10 then (0, 0, st.2.2 ++ beDigits 256 8 buf)
    else (buf, count, st.2.2)

/-- The decoder's trailing flush (`staticimp.rs:425-432`): with more than one
pending symbol, append the low `count - 1` bytes of the accumulator
(`count - 2` beyond 5 symbols). -/
def decodeFinish (st : Nat × Nat × List Nat) : List Nat :=
  if 1 < st.2.1 then
    let rem_bytes := if st.2.1 ≤ 5 then st.2.1 - 1 else st.2.1 - 2
    st.2.2 ++ (beDigits 256 8 st.1).drop (8 - rem_bytes)
  else st.2.2

/-- `base85::decode` (`staticimp.rs:369-434`): fold the loop over the input,
then flush the trailing bytes. -/
def decode (value : List Char) : List Nat :=
  decodeFinish (value.foldl decodeStep (0, 0, []))

/-- The decoder step at the digit level (the `some` branch of `decodeStep`,
with the alphabet lookup already performed); used to reason about decoding
encoder output, whose chars all come from the alphabet. -/
def stepD (st : Nat × Nat × List Nat) (d : Nat) : Nat × Nat × List Nat :=
  let buf := (st.1 * 85 + d) % 2 ^ 64
  let count := st.2.1 + 1
  if count = 10 then (0, 0, st.2.2 ++ beDigits 256 8 buf)
  else (buf, count, st.2.2)

/-- Folding the wrapping `buf * 85 + d` accumulation over a digit list. -/
def accum85 (a : Nat) (ds : List Nat) : Nat :=
  ds.foldl (fun x d => (x * 85 + d) % 2 ^ 64) a

end base85

/-! ## staticimp.rs : field processing (`staticimp.rs:663-728, 1317-1378`) -/

/-- `FieldTransformType` (`staticimp.rs:670-689`). -/
inductive FieldTransformType where
  | Slugify
  | Md5
  | Sha256
  | ToBase85
  | FromBase85
deriving DecidableEq, Repr

/-- `FieldTransform` (`staticimp.rs:664-668`). -/
structure FieldTransform where
  field : List Char
  transform : FieldTransformType
deriving DecidableEq, Repr

/-- `GeneratedField` (`staticimp.rs:694-698`): currently a single template
string variant. -/
inductive GeneratedField where
  | Value (val : List Char)
deriving DecidableEq, Repr

/-- `Render<&NewEntry, ImpResult<String>> for GeneratedField`
(`staticimp.rs:701-710`): replace the template's placeholders using the entry
as resolver; never fails. -/
def GeneratedField.render (g : GeneratedField) (e : NewEntry) : Except ImpError (List Char) :=
  match g with
  | .Value val => .ok (render_str val (NewEntry.render e))

/-- `FieldConfig` (`staticimp.rs:719-728`); the hash sets/maps become lists. -/
structure FieldConfig where
  allowed : List (List Char)
  required : List (List Char)
  extra : List (List Char × GeneratedField)
  transforms : List FieldTransform

/-- The external functions the pipeline calls but whose code is outside this
repository (slug, md5, sha256 crates; std UTF-8 conversion; the
markdown_table crate used for review descriptions).  Modelled as parameters:
no claim depends on their behaviour. -/
structure ExternalFns where
  slugifyFn : List Char → List Char
  md5Fn : List Char → List Char
  sha256Fn : List Char → List Char
  toUtf8 : List Char → List Nat
  fromUtf8 : List Nat → Option (List Char)
  markdownTable : List (List Char × List Char) → Option (List Char)

/-- The entry's field-name set (`self.fields.keys()`). -/
def fieldKeys (e : NewEntry) : List (List Char) := e.fields.map Prod.fst

/-- `NewEntry::validate_fields` (`staticimp.rs:1318-1331`). -/
def NewEntry.validate_fields (e : NewEntry) (conf : FieldConfig) : Except ImpError NewEntry :=
  if ¬ (conf.required.all (fun k => (fieldKeys e).contains k)) then
    .error (.BadRequest (lstr "Missing field(s)"))
  else if ¬ ((fieldKeys e).all (fun k => conf.allowed.contains k)) then
    .error (.BadRequest (lstr "Unknown field(s)"))
  else .ok e

/-- Insert-or-overwrite one field (`self.fields.fields.insert(key, val)`). -/
def NewEntry.setField (e : NewEntry) (k v : List Char) : NewEntry :=
  { e with fields := insertA e.fields k v }

/-- `NewEntry::generate_fields` (`staticimp.rs:1334-1343`): for each
configured pair render the template against the current entry and
insert/overwrite that field (the `?` propagates render errors). -/
def NewEntry.generate_fields (e : NewEntry) (gens : List (List Char × GeneratedField)) :
    Except ImpError NewEntry :=
  match gens with
  | [] => .ok e
  | (k, g) :: rest =>
    match GeneratedField.render g e with
    | .error err => .error err
    | .ok val => NewEntry.generate_fields (e.setField k val) rest

/-- One field transform application (the match arm bodies of
`staticimp.rs:1353-1359`); external digests via `ExternalFns`. -/
def applyTransform (ext : ExternalFns) (t : FieldTransformType) (v : List Char) :
    Except ImpError (List Char) :=
  match t with
  | .Slugify => .ok (ext.slugifyFn v)
  | .Md5 => .ok (ext.md5Fn v)
  | .Sha256 => .ok (ext.sha256Fn v)
  | .ToBase85 => .ok (base85.encode (ext.toUtf8 v))
  | .FromBase85 =>
    match ext.fromUtf8 (base85.decode v) with
    | some s => .ok s
    | none => .error (.InternalError (lstr "FromUtf8Error"))

/-- `NewEntry::transform_fields` (`staticimp.rs:1346-1363`): apply each
transform in order to the named field when it is present. -/
def NewEntry.transform_fields (e : NewEntry) (ext : ExternalFns) (ts : List FieldTransform) :
    Except ImpError NewEntry :=
  match ts with
  | [] => .ok e
  | t :: rest =>
    match lookupA e.fields t.field with
    | none => NewEntry.transform_fields e ext rest
    | some v =>
      match applyTransform ext t.transform v with
      | .error err => .error err
      | .ok v' => NewEntry.transform_fields (e.setField t.field v') ext rest

/-- `NewEntry::process_fields` (`staticimp.rs:1374-1378`):
validate, then generate, then transform, failing fast. -/
def NewEntry.process_fields (e : NewEntry) (ext : ExternalFns) (conf : FieldConfig) :
    Except ImpError NewEntry := do
  let e1 ← e.validate_fields conf
  let e2 ← e1.generate_fields conf.extra
  e2.transform_fields ext conf.transforms

/-! ## Claims C6 and C7: validation and generated fields -/

/-- C6: validation succeeds (returning the entry unchanged) iff the
caller-submitted field-name set is a superset of `required` and a subset of
`allowed`; a missing required name fails with the missing-field error, and
otherwise a present-but-not-allowed name fails with the unknown-field error
(the missing-field check takes precedence).  Both checks use the
caller-submitted keys only. -/
theorem spec_C6_validation (e : NewEntry) (conf : FieldConfig) :
    ((NewEntry.validate_fields e conf = .ok e) ↔
      ((∀ k ∈ conf.required, k ∈ fieldKeys e) ∧ (∀ k ∈ fieldKeys e, k ∈ conf.allowed)))
  ∧ ((∃ k ∈ conf.required, k ∉ fieldKeys e) →
      NewEntry.validate_fields e conf = .error (.BadRequest (lstr "Missing field(s)")))
  ∧ ((∀ k ∈ conf.required, k ∈ fieldKeys e) → (∃ k ∈ fieldKeys e, k ∉ conf.allowed) →
      NewEntry.validate_fields e conf = .error (.BadRequest (lstr "Unknown field(s)"))) := by
  by_cases hmiss : ∃ x ∈ conf.required, x ∉ fieldKeys e
  · have hv : NewEntry.validate_fields e conf = .error (.BadRequest (lstr "Missing field(s)")) := by
      simp [NewEntry.validate_fields, hmiss]
    refine ⟨?_, fun _ => hv, ?_⟩
    · rw [hv]
      constructor
      · intro h
        simp at h
      · rintro ⟨h1, _⟩
        obtain ⟨k, hk, hnk⟩ := hmiss
        exact absurd (h1 k hk) hnk
    · intro h1 _
      obtain ⟨k, hk, hnk⟩ := hmiss
      exact absurd (h1 k hk) hnk
  · by_cases hunk : ∃ x ∈ fieldKeys e, x ∉ conf.allowed
    · have hv : NewEntry.validate_fields e conf = .error (.BadRequest (lstr "Unknown field(s)")) := by
        simp [NewEntry.validate_fields, hmiss, hunk]
      refine ⟨?_, ?_, fun _ _ => hv⟩
      · rw [hv]
        constructor
        · intro h
          simp at h
        · rintro ⟨_, h2⟩
          obtain ⟨k, hk, hnk⟩ := hunk
          exact absurd (h2 k hk) hnk
      · intro hex
        exact absurd hex hmiss
    · have hv : NewEntry.validate_fields e conf = .ok e := by
        simp [NewEntry.validate_fields, hmiss, hunk]
      push_neg at hmiss hunk
      refine ⟨?_, ?_, ?_⟩
      · rw [hv]
        exact ⟨fun _ => ⟨hmiss, hunk⟩, fun _ => rfl⟩
      · intro hex
        obtain ⟨k, hk, hnk⟩ := hex
        exact absurd (hmiss k hk) hnk
      · intro _ hex
        obtain ⟨k, hk, hnk⟩ := hex
        exact absurd (hunk k hk) hnk

/-- A concrete entry with a single allowed+required field for witnesses. -/
def entryA : NewEntry :=
  { uid := lstr "uid0"
  , timestamp_str := lstr "ts0"
  , render_date := fun _ => []
  , project_id := lstr "p"
  , branch := lstr "main"
  , fields := [(lstr "a", lstr "x")]
  , params := [] }

/-- A concrete field config: `required = {a}`, `allowed = {a, b}`, one
generated field `g` (outside `allowed`) with a literal template. -/
def confA : FieldConfig :=
  { allowed := [lstr "a", lstr "b"]
  , required := [lstr "a"]
  , extra := [(lstr "g", .Value (lstr "gen"))]
  , transforms := [] }

/-- Concrete stand-ins for the external functions. -/
def extA : ExternalFns :=
  { slugifyFn := id
  , md5Fn := id
  , sha256Fn := id
  , toUtf8 := fun l => l.map Char.toNat
  , fromUtf8 := fun _ => none
  , markdownTable := fun _ => some (lstr "TBL") }

/-- C6 witness: on a concrete entry missing its required field, validation
fails with the missing-field error. -/
theorem spec_C6_validation_witness :
    NewEntry.validate_fields sampleEntry confA = .error (.BadRequest (lstr "Missing field(s)")) :=
  (spec_C6_validation sampleEntry confA).2.1 ⟨lstr "a", by decide, by decide⟩

theorem generate_fields_ok (gens : List (List Char × GeneratedField)) (e : NewEntry) :
    ∃ e', NewEntry.generate_fields e gens = .ok e' := by
  induction gens generalizing e with
  | nil => exact ⟨e, rfl⟩
  | cons p rest ih =>
    obtain ⟨k, g⟩ := p
    match g with
    | .Value val =>
      simpa [NewEntry.generate_fields, GeneratedField.render] using
        ih (e.setField k (render_str val (NewEntry.render e)))

theorem lookupA_insertA_self (m : List (List Char × List Char)) (k v : List Char) :
    lookupA (insertA m k v) k = some v := by
  induction m with
  | nil => simp [insertA, lookupA]
  | cons p rest ih =>
    obtain ⟨k', v'⟩ := p
    by_cases hk : k' = k
    · simp [insertA, hk, lookupA]
    · simp [insertA, hk, lookupA, ih]

theorem lookupA_insertA_present (m : List (List Char × List Char)) (k k' v' : List Char)
    (h : ∃ v, lookupA m k = some v) : ∃ v, lookupA (insertA m k' v') k = some v := by
  by_cases hk : k' = k
  · subst hk
    exact ⟨v', lookupA_insertA_self m k' v'⟩
  · induction m with
    | nil => simp [lookupA] at h
    | cons p rest ih =>
      obtain ⟨k0, v0⟩ := p
      by_cases h0 : k0 = k'
      · subst h0
        have hk0 : ¬ (k0 = k) := hk
        simp only [lookupA, if_neg hk0] at h
        simp only [insertA, if_pos rfl, lookupA, if_neg hk0]
        exact h
      · simp only [insertA, if_neg h0, lookupA]
        by_cases h1 : k0 = k
        · simp [lookupA, h1]
        · simp only [lookupA, if_neg h1] at h
          simp only [if_neg h1]
          exact ih h

theorem generate_fields_present (gens : List (List Char × GeneratedField)) (e e' : NewEntry)
    (hgen : NewEntry.generate_fields e gens = .ok e') (k : List Char)
    (h : ∃ v, lookupA e.fields k = some v) : ∃ v, lookupA e'.fields k = some v := by
  induction gens generalizing e with
  | nil =>
    simp only [NewEntry.generate_fields, Except.ok.injEq] at hgen
    exact hgen ▸ h
  | cons p rest ih =>
    obtain ⟨k0, g0⟩ := p
    match g0 with
    | .Value val =>
      simp only [NewEntry.generate_fields, GeneratedField.render] at hgen
      exact ih _ hgen (lookupA_insertA_present _ _ _ _ h)

theorem generate_fields_mem (gens : List (List Char × GeneratedField)) (e e' : NewEntry)
    (hgen : NewEntry.generate_fields e gens = .ok e') :
    ∀ p ∈ gens, ∃ v, lookupA e'.fields p.1 = some v := by
  induction gens generalizing e with
  | nil => simp
  | cons p0 rest ih =>
    obtain ⟨k0, g0⟩ := p0
    match g0 with
    | .Value val =>
      simp only [NewEntry.generate_fields, GeneratedField.render] at hgen
      intro p hp
      rcases List.mem_cons.mp hp with rfl | hmem
      · exact generate_fields_present rest _ _ hgen _
          ⟨_, lookupA_insertA_self _ _ _⟩
      · exact ih _ hgen p hmem

/-- C7: once validation of the caller-submitted keys has passed, the
generation stage always succeeds: each configured extra field's template is
rendered against the current entry and inserted or overwritten in the field
map — with no allowed/required check on the generated names (every
configured name, allowed or not, ends up present) — and processing continues
directly with the transform stage (validation is not re-run). -/
theorem spec_C7_generated_fields (ext : ExternalFns) (e : NewEntry) (conf : FieldConfig)
    (hv : NewEntry.validate_fields e conf = .ok e) :
    (∃ e', NewEntry.generate_fields e conf.extra = .ok e'
      ∧ NewEntry.process_fields e ext conf = NewEntry.transform_fields e' ext conf.transforms
      ∧ ∀ p ∈ conf.extra, ∃ v, lookupA e'.fields p.1 = some v)
  ∧ (∀ (e₂ : NewEntry) (k tmpl : List Char),
      NewEntry.generate_fields e₂ [(k, .Value tmpl)] =
        .ok (e₂.setField k (render_str tmpl (NewEntry.render e₂)))) := by
  constructor
  · obtain ⟨e', hgen⟩ := generate_fields_ok conf.extra e
    refine ⟨e', hgen, ?_, generate_fields_mem conf.extra e e' hgen⟩
    simp [NewEntry.process_fields, hv, hgen, Bind.bind, Except.bind]
  · intro e₂ k tmpl
    rfl

/-- C7 witness: concrete run where the generated field `g` is outside the
allowed set yet generation succeeds and `g` is present afterwards. -/
theorem spec_C7_generated_fields_witness :
    (∃ e', NewEntry.generate_fields entryA confA.extra = .ok e'
      ∧ NewEntry.process_fields entryA extA confA =
          NewEntry.transform_fields e' extA confA.transforms
      ∧ ∀ p ∈ confA.extra, ∃ v, lookupA e'.fields p.1 = some v)
  ∧ (∀ (e₂ : NewEntry) (k tmpl : List Char),
      NewEntry.generate_fields e₂ [(k, .Value tmpl)] =
        .ok (e₂.setField k (render_str tmpl (NewEntry.render e₂)))) :=
  spec_C7_generated_fields extA entryA confA (by rfl)

/-! ## staticimp.rs : the record builder (`staticimp.rs:1437-1515`) -/

/-- `GitEntryConfig` (`staticimp.rs:828-847`): the per-entry-type template
strings. -/
structure GitEntryConfig where
  path : List Char
  filename : List Char
  branch : List Char
  review_branch : List Char
  mr_description : List Char
  commit_message : List Char
deriving DecidableEq, Repr

/-- `EntryConfig` (`staticimp.rs:881-904`); the recaptcha sub-config is not
modelled (outside the core and unused by the builder). -/
structure EntryConfig where
  disabled : Bool
  debug : Bool
  fields : FieldConfig
  review : Bool
  format : SerializationFormat
  git : Option GitEntryConfig

/-- `GitEntry` (`staticimp.rs:1238-1255`): the storage-ready record. -/
structure GitEntry where
  project_id : List Char
  branch : List Char
  file_path : List Char
  fields : List (List Char × List Char)
  commit_message : List Char
  review_branch : Option (List Char)
  mr_description : Option (List Char)
  format : SerializationFormat

/-- Models `Path::new(a).join(b)` followed by `to_str` (total on strings):
an absolute `b` replaces `a`; otherwise the two are joined with a `/`. -/
def pathJoin (a b : List Char) : List Char :=
  match b with
  | '/' :: _ => b
  | _ =>
    if a = [] then b
    else if a.getLast? = some '/' then a ++ b
    else a ++ '/' :: b

/-- `Render<NewEntry, ImpResult<GitEntry>> for EntryConfig`
(`staticimp.rs:1437-1515`): build the record, checking the branch pin,
joining the path, and populating review metadata as a pair when review is
enabled (the external markdown-table builder may fail). -/
def EntryConfig.render (ext : ExternalFns) (conf : EntryConfig) (entry : NewEntry) :
    Except ImpError GitEntry :=
  if entry.branch = [] then .error (.BadRequest (lstr "Must specify branch"))
  else
    match conf.git with
    | none => .error (.BadRequest (lstr "missing git entry configuration"))
    | some gitconf =>
      let branch := render_str gitconf.branch (NewEntry.render entry)
      if branch ≠ [] ∧ branch ≠ entry.branch then
        .error (.BadRequest (lstr "Branch not allowed"))
      else
        let file_path := pathJoin (render_str gitconf.path (NewEntry.render entry))
          (render_str gitconf.filename (NewEntry.render entry))
        let branch2 := render_str gitconf.branch (NewEntry.render entry)
        let commit_message := render_str gitconf.commit_message (NewEntry.render entry)
        if conf.review then
          match ext.markdownTable entry.fields with
          | none => .error (.InternalError (lstr "failed to create markdown table"))
          | some entry_table =>
            .ok { project_id := entry.project_id
                , branch := branch2
                , file_path := file_path
                , fields := entry.fields
                , commit_message := commit_message
                , review_branch :=
                    some (render_str gitconf.review_branch (NewEntry.render entry))
                , mr_description :=
                    some (render_str gitconf.mr_description (NewEntry.render entry)
                      ++ lstr "\n\n" ++ entry_table)
                , format := conf.format }
        else
          .ok { project_id := entry.project_id
              , branch := branch2
              , file_path := file_path
              , fields := entry.fields
              , commit_message := commit_message
              , review_branch := none
              , mr_description := none
              , format := conf.format }

/-! ## Claims C8, C9, C10: branch pinning and review metadata -/

theorem tokenize_literal {l : List Char} (h : findChar leftBrace l = none) (hne : l ≠ []) :
    tokenize l = [SimpleToken.Literal l] := by
  match l, hne with
  | c :: cs, _ =>
    have hc : ¬ c = leftBrace := by
      intro hceq
      rw [hceq] at h
      simp [findChar] at h
    have hp : parseNext (c :: cs) = some (.Literal (c :: cs), []) := by
      simp [parseNext, hc, h]
    rw [tokenize_step hp, tokenize_nil]

theorem render_str_literal {l : List Char} (r : Resolver) (h : findChar leftBrace l = none)
    (hne : l ≠ []) : render_str l r = l := by
  rw [render_str, tokenize_literal h hne]
  simp [render_placeholder, SimpleToken.isPlaceholderTok, SimpleToken.display_ref]

theorem render_str_nil (r : Resolver) : render_str [] r = [] := by
  rw [render_str, tokenize_nil]
  rfl

/-- C8: with a non-empty target branch and a git sub-config present, building
fails with the branch-not-allowed error exactly when the rendered branch
template is non-empty and differs from the entry's target branch; when it
renders empty or equal to the target branch, building never fails with that
error. -/
theorem spec_C8_branch_pinning (ext : ExternalFns) (conf : EntryConfig) (entry : NewEntry)
    (gitconf : GitEntryConfig) (hb : entry.branch ≠ []) (hg : conf.git = some gitconf) :
    (render_str gitconf.branch (NewEntry.render entry) ≠ [] ∧
        render_str gitconf.branch (NewEntry.render entry) ≠ entry.branch →
      EntryConfig.render ext conf entry = .error (.BadRequest (lstr "Branch not allowed")))
  ∧ (render_str gitconf.branch (NewEntry.render entry) = [] ∨
        render_str gitconf.branch (NewEntry.render entry) = entry.branch →
      EntryConfig.render ext conf entry ≠ .error (.BadRequest (lstr "Branch not allowed"))) := by
  constructor
  · intro hpin
    simp [EntryConfig.render, hb, hg, hpin]
  · intro hok
    have hcond : ¬ (render_str gitconf.branch (NewEntry.render entry) ≠ [] ∧
        render_str gitconf.branch (NewEntry.render entry) ≠ entry.branch) := by
      rcases hok with h | h <;> simp [h]
    simp only [EntryConfig.render, if_neg hb, hg, if_neg hcond]
    by_cases hrev : conf.review
    · simp only [hrev, if_pos rfl]
      match ext.markdownTable entry.fields with
      | none => simp
      | some tbl => simp
    · simp [hrev]

/-- Concrete builder inputs for the C8 witness: branch template `main`,
request for branch `dev`. -/
def gitconfB : GitEntryConfig :=
  { path := []
  , filename := []
  , branch := lstr "main"
  , review_branch := []
  , mr_description := []
  , commit_message := [] }

/-- Entry requesting branch `dev` (branch template renders `main`). -/
def entryB : NewEntry :=
  { uid := lstr "uid0"
  , timestamp_str := lstr "ts0"
  , render_date := fun _ => []
  , project_id := lstr "p"
  , branch := lstr "dev"
  , fields := [(lstr "a", lstr "x")]
  , params := [] }

/-- Entry config wrapping `gitconfB`, review disabled. -/
def confB : EntryConfig :=
  { disabled := false
  , debug := false
  , fields := confA
  , review := false
  , format := .Yaml
  , git := some gitconfB }

/-- C8 witness: branch template renders `main`, request for `dev` fails with
the branch-not-allowed error. -/
theorem spec_C8_branch_pinning_witness :
    EntryConfig.render extA confB entryB = .error (.BadRequest (lstr "Branch not allowed")) :=
  (spec_C8_branch_pinning extA confB entryB gitconfB (by decide) rfl).1
    (by rw [show gitconfB.branch = lstr "main" from rfl,
            render_str_literal _ (by decide) (by decide)]
        exact ⟨by decide, by decide⟩)

/-- C9: a successfully built record has its review metadata present as a pair
iff review is enabled — never exactly one of the two — and when review is
enabled the description is the rendered mr-description template with the
Field/Content table of the final field map appended. -/
theorem spec_C9_review_pair (ext : ExternalFns) (conf : EntryConfig) (entry : NewEntry)
    (g : GitEntry) (h : EntryConfig.render ext conf entry = .ok g) :
    (g.review_branch.isSome = conf.review ∧ g.mr_description.isSome = conf.review)
  ∧ (conf.review = true →
      ∃ gitconf table, conf.git = some gitconf
        ∧ ext.markdownTable entry.fields = some table
        ∧ g.review_branch = some (render_str gitconf.review_branch (NewEntry.render entry))
        ∧ g.mr_description = some (render_str gitconf.mr_description (NewEntry.render entry)
            ++ lstr "\n\n" ++ table)) := by
  by_cases hb : entry.branch = []
  · simp [EntryConfig.render, hb] at h
  · match hg : conf.git with
    | none => simp [EntryConfig.render, hb, hg] at h
    | some gitconf =>
      simp only [EntryConfig.render, if_neg hb, hg] at h
      by_cases hpin : render_str gitconf.branch (NewEntry.render entry) ≠ [] ∧
          render_str gitconf.branch (NewEntry.render entry) ≠ entry.branch
      · simp [if_pos hpin] at h
      · simp only [if_neg hpin] at h
        by_cases hrev : conf.review = true
        · rw [hrev, if_pos rfl] at h
          match htbl : ext.markdownTable entry.fields with
          | none => rw [htbl] at h; simp at h
          | some tbl =>
            rw [htbl] at h
            simp only [Except.ok.injEq] at h
            subst h
            refine ⟨⟨by simp [hrev], by simp [hrev]⟩, fun _ => ⟨gitconf, tbl, rfl, rfl, rfl, rfl⟩⟩
        · have hrf : conf.review = false := by simpa using hrev
          rw [hrf, if_neg (by simp)] at h
          simp only [Except.ok.injEq] at h
          subst h
          refine ⟨⟨by simp [hrf], by simp [hrf]⟩, fun hx => absurd hx hrev⟩

/-- Builder config with review enabled and all templates empty (the
branch-agnostic configuration). -/
def gitconfC : GitEntryConfig :=
  { path := []
  , filename := []
  , branch := []
  , review_branch := []
  , mr_description := []
  , commit_message := [] }

/-- Entry config wrapping `gitconfC`, review enabled. -/
def confC : EntryConfig :=
  { disabled := false
  , debug := false
  , fields := confA
  , review := true
  , format := .Yaml
  , git := some gitconfC }

/-- The record `EntryConfig.render extA confC entryB` evaluates to. -/
def gC : GitEntry :=
  { project_id := lstr "p"
  , branch := []
  , file_path := []
  , fields := [(lstr "a", lstr "x")]
  , commit_message := []
  , review_branch := some []
  , mr_description := some (lstr "\n\n" ++ lstr "TBL")
  , format := .Yaml }

/-- Concrete evaluation of the builder on `confC`/`entryB` (shared by the C9
and C10 witnesses). -/
theorem renderC_eval : EntryConfig.render extA confC entryB = .ok gC := by
  have hb : ¬ (entryB.branch = []) := by decide
  simp [EntryConfig.render, hb, confC, gitconfC, extA, render_str_nil, pathJoin, gC, entryB,
    show ¬ (lstr "dev" = []) by decide]

/-- C9 witness: a concrete review-enabled build yields both review fields
populated, with the table appended to the rendered description. -/
theorem spec_C9_review_pair_witness :
    (gC.review_branch.isSome = confC.review ∧ gC.mr_description.isSome = confC.review)
  ∧ (confC.review = true →
      ∃ gitconf table, confC.git = some gitconf
        ∧ extA.markdownTable entryB.fields = some table
        ∧ gC.review_branch = some (render_str gitconf.review_branch (NewEntry.render entryB))
        ∧ gC.mr_description = some (render_str gitconf.mr_description (NewEntry.render entryB)
            ++ lstr "\n\n" ++ table)) :=
  spec_C9_review_pair extA confC entryB gC renderC_eval

/-- C10: when the branch template renders empty (the branch-agnostic
configuration) and building succeeds, the record's branch field is the empty
string — the builder stores the re-rendered template output, never the
entry's requested target branch. -/
theorem spec_C10_branch_agnostic (ext : ExternalFns) (conf : EntryConfig) (entry : NewEntry)
    (gitconf : GitEntryConfig) (g : GitEntry)
    (hg : conf.git = some gitconf)
    (hr : render_str gitconf.branch (NewEntry.render entry) = [])
    (hok : EntryConfig.render ext conf entry = .ok g) :
    g.branch = [] ∧ g.branch ≠ entry.branch := by
  by_cases hb : entry.branch = []
  · simp [EntryConfig.render, hb] at hok
  · simp only [EntryConfig.render, if_neg hb, hg] at hok
    have hcond : ¬ (render_str gitconf.branch (NewEntry.render entry) ≠ [] ∧
        render_str gitconf.branch (NewEntry.render entry) ≠ entry.branch) := by
      simp [hr]
    simp only [if_neg hcond] at hok
    by_cases hrev : conf.review = true
    · rw [hrev, if_pos rfl] at hok
      match htbl : ext.markdownTable entry.fields with
      | none => rw [htbl] at hok; simp at hok
      | some tbl =>
        rw [htbl] at hok
        simp only [Except.ok.injEq] at hok
        subst hok
        have hgb : render_str gitconf.branch (NewEntry.render entry) = [] := hr
        exact ⟨hgb, by
          intro hx
          rw [hgb] at hx
          exact hb hx.symm⟩
    · have hrf : conf.review = false := by simpa using hrev
      rw [hrf, if_neg (by simp)] at hok
      simp only [Except.ok.injEq] at hok
      subst hok
      have hgb : render_str gitconf.branch (NewEntry.render entry) = [] := hr
      exact ⟨hgb, by
        intro hx
        rw [hgb] at hx
        exact hb hx.symm⟩

/-- C10 witness: the concrete branch-agnostic build stores the empty string
as the record branch, not the entry's requested branch `dev`. -/
theorem spec_C10_branch_agnostic_witness : gC.branch = [] ∧ gC.branch ≠ entryB.branch :=
  spec_C10_branch_agnostic extA confC entryB gitconfC gC rfl
    (render_str_nil (NewEntry.render entryB)) renderC_eval

/-! ## Claim C3: base85 round trip -/

namespace base85

theorem beDigits_zero (base v : Nat) : beDigits base 0 v = [] := rfl

theorem beDigits_cons (base n v : Nat) :
    beDigits base (n + 1) v = (v / base ^ n % base) :: beDigits base n v := by
  simp [beDigits, List.range_succ]

theorem beDigits_snoc (base : Nat) :
    ∀ n v, beDigits base (n + 1) v = beDigits base n (v / base) ++ [v % base] := by
  intro n
  induction n with
  | zero => intro v; simp [beDigits, List.range_succ]
  | succ n ih =>
    intro v
    rw [beDigits_cons base (n + 1) v, ih v, beDigits_cons base n (v / base)]
    have hd : v / base / base ^ n = v / base ^ (n + 1) := by
      rw [Nat.div_div_eq_div_mul, ← pow_succ']
    rw [hd]
    rfl

theorem beDigits_length (base n v : Nat) : (beDigits base n v).length = n := by
  simp [beDigits]

theorem beDigits_lt (base n v : Nat) (hb : 0 < base) : ∀ d ∈ beDigits base n v, d < base := by
  intro d hd
  simp only [beDigits, List.mem_map] at hd
  obtain ⟨i, _, rfl⟩ := hd
  exact Nat.mod_lt _ hb

theorem accum85_toSym : ∀ n v, v < 85 ^ n → v < 2 ^ 64 → accum85 0 (beDigits 85 n v) = v := by
  intro n
  induction n with
  | zero =>
    intro v h85 _
    have : v = 0 := Nat.lt_one_iff.mp (by simpa using h85)
    simp [this, accum85, beDigits_zero]
  | succ n ih =>
    intro v h85 h64
    rw [beDigits_snoc]
    have hdiv85 : v / 85 < 85 ^ n := by
      rw [Nat.div_lt_iff_lt_mul (by norm_num : (0:Nat) < 85)]
      calc v < 85 ^ (n + 1) := h85
        _ = 85 ^ n * 85 := pow_succ 85 n
    have hdiv64 : v / 85 < 2 ^ 64 := Nat.lt_of_le_of_lt (Nat.div_le_self v 85) h64
    simp only [accum85, List.foldl_append, List.foldl_cons, List.foldl_nil]
    rw [show (beDigits 85 n (v / 85)).foldl (fun x d => (x * 85 + d) % 2 ^ 64) 0 =
        accum85 0 (beDigits 85 n (v / 85)) from rfl]
    rw [ih (v / 85) hdiv85 hdiv64]
    rw [Nat.div_add_mod' v 85]
    exact Nat.mod_eq_of_lt h64

theorem bytesToNat_snoc (l : List Nat) (d : Nat) :
    bytesToNat (l ++ [d]) = bytesToNat l * 256 + d := by
  simp [bytesToNat, List.foldl_append]

theorem bytesToNat_lt : ∀ l : List Nat, (∀ x ∈ l, x < 256) → bytesToNat l < 256 ^ l.length := by
  intro l
  induction l using List.reverseRecOn with
  | nil => intro _; simp [bytesToNat]
  | append_singleton xs x ih =>
    intro h
    rw [bytesToNat_snoc]
    have hx : x < 256 := h x (by simp)
    have hxs : bytesToNat xs < 256 ^ xs.length := ih (fun y hy => h y (by simp [hy]))
    calc bytesToNat xs * 256 + x < (bytesToNat xs + 1) * 256 := by omega
      _ ≤ 256 ^ xs.length * 256 := Nat.mul_le_mul_right 256 hxs
      _ = 256 ^ (xs ++ [x]).length := by
          simp [pow_succ]

theorem beDigits_bytesToNat : ∀ l : List Nat, (∀ x ∈ l, x < 256) →
    beDigits 256 l.length (bytesToNat l) = l := by
  intro l
  induction l using List.reverseRecOn with
  | nil => intro _; simp [beDigits_zero]
  | append_singleton xs x ih =>
    intro h
    have hx : x < 256 := h x (by simp)
    have hlen : (xs ++ [x]).length = xs.length + 1 := by simp
    rw [hlen, beDigits_snoc, bytesToNat_snoc]
    have hdiv : (bytesToNat xs * 256 + x) / 256 = bytesToNat xs := by
      omega
    have hmod : (bytesToNat xs * 256 + x) % 256 = x := by
      omega
    rw [hdiv, hmod, ih (fun y hy => h y (by simp [hy]))]

theorem bytesToNat_zero_pad (k : Nat) (l : List Nat) :
    bytesToNat (List.replicate k 0 ++ l) = bytesToNat l := by
  induction k with
  | zero => simp
  | succ k ih =>
    rw [List.replicate_succ]
    simpa [bytesToNat] using ih

theorem beDigits_drop (l : List Nat) (hlen : l.length ≤ 8) (h : ∀ x ∈ l, x < 256) :
    (beDigits 256 8 (bytesToNat l)).drop (8 - l.length) = l := by
  have hpad : (List.replicate (8 - l.length) 0 ++ l).length = 8 := by
    simp
    omega
  have hb : ∀ x ∈ List.replicate (8 - l.length) 0 ++ l, x < 256 := by
    intro x hx
    rcases List.mem_append.mp hx with hx | hx
    · have := List.eq_of_mem_replicate hx
      omega
    · exact h x hx
  have h8 := beDigits_bytesToNat (List.replicate (8 - l.length) 0 ++ l) hb
  rw [hpad, bytesToNat_zero_pad] at h8
  rw [h8]
  have hd := List.drop_left (List.replicate (8 - l.length) (0:Nat)) l
  simp only [List.length_replicate] at hd
  exact hd

theorem stepD_no_flush (st : Nat × Nat × List Nat) (d : Nat) (h : st.2.1 + 1 ≠ 10) :
    stepD st d = ((st.1 * 85 + d) % 2 ^ 64, st.2.1 + 1, st.2.2) := by
  simp [stepD, h]

theorem foldl_stepD_low : ∀ (ds : List Nat) (buf count : Nat) (out : List Nat),
    count + ds.length < 10 →
    ds.foldl stepD (buf, count, out) = (accum85 buf ds, count + ds.length, out) := by
  intro ds
  induction ds with
  | nil => intro buf count out _; simp [accum85]
  | cons d rest ih =>
    intro buf count out h
    simp only [List.length_cons] at h
    rw [List.foldl_cons, stepD_no_flush (buf, count, out) d (show count + 1 ≠ 10 by omega)]
    rw [ih ((buf * 85 + d) % 2 ^ 64) (count + 1) out (by omega)]
    simp only [accum85, List.foldl_cons, Prod.mk.injEq, List.length_cons, true_and, and_true]
    omega

theorem foldl_stepD_chunk (v : Nat) (out : List Nat) (h64 : v < 2 ^ 64) :
    (beDigits 85 10 v).foldl stepD (0, 0, out) = (0, 0, out ++ beDigits 256 8 v) := by
  have h85 : v < 85 ^ 10 := by
    calc v < 2 ^ 64 := h64
      _ < 85 ^ 10 := by norm_num
  rw [show (10 : Nat) = 9 + 1 from rfl, beDigits_snoc]
  rw [List.foldl_append]
  have hdiv85 : v / 85 < 85 ^ 9 := by
    rw [Nat.div_lt_iff_lt_mul (by norm_num : (0:Nat) < 85)]
    calc v < 85 ^ 10 := h85
      _ = 85 ^ 9 * 85 := pow_succ 85 9
  have hdiv64 : v / 85 < 2 ^ 64 := Nat.lt_of_le_of_lt (Nat.div_le_self v 85) h64
  rw [foldl_stepD_low (beDigits 85 9 (v / 85)) 0 0 out (by rw [beDigits_length]; omega)]
  rw [show accum85 0 (beDigits 85 9 (v / 85)) = v / 85 from accum85_toSym 9 _ hdiv85 hdiv64]
  simp only [List.foldl_cons, List.foldl_nil, beDigits_length, stepD]
  rw [Nat.div_add_mod' v 85, Nat.mod_eq_of_lt h64]
  simp

/-- Alphabet lookup inverts the encoder's symbol-to-char map. -/
theorem charIndex_chars : ∀ d, d < 85 → charIndex (chars.getD d ' ') = some d := by
  decide

theorem foldl_decodeStep_map : ∀ (ds : List Nat) (st : Nat × Nat × List Nat),
    (∀ d ∈ ds, d < 85) →
    (ds.map (fun d => chars.getD d ' ')).foldl decodeStep st = ds.foldl stepD st := by
  intro ds
  induction ds with
  | nil => intro st _; rfl
  | cons d rest ih =>
    intro st h
    simp only [List.map_cons, List.foldl_cons]
    have hstep : decodeStep st (chars.getD d ' ') = stepD st d := by
      rw [decodeStep, charIndex_chars d (h d (by simp))]
      rfl
    rw [hstep, ih _ (fun x hx => h x (by simp [hx]))]

theorem encodeSyms_ge8 (nrem : Nat) (l : List Nat) (h : 8 ≤ l.length) :
    encodeSyms nrem l =
      beDigits 85 10 (bytesToNat (l.take 8)) ++ encodeSyms nrem (l.drop 8) := by
  match l with
  | b0 :: b1 :: b2 :: b3 :: b4 :: b5 :: b6 :: b7 :: rest => rfl
  | [] => simp at h
  | [b0] => simp at h
  | [b0, b1] => simp at h
  | [b0, b1, b2] => simp at h
  | [b0, b1, b2, b3] => simp at h
  | [b0, b1, b2, b3, b4] => simp at h
  | [b0, b1, b2, b3, b4, b5] => simp at h
  | [b0, b1, b2, b3, b4, b5, b6] => simp at h

theorem encodeSyms_small (nrem : Nat) (l : List Nat) (hne : l ≠ []) (h : l.length < 8) :
    encodeSyms nrem l = beDigits 85 nrem (bytesToNat l) := by
  match l with
  | b0 :: b1 :: b2 :: b3 :: b4 :: b5 :: b6 :: b7 :: rest => simp at h; omega
  | [] => exact absurd rfl hne
  | [b0] => rfl
  | [b0, b1] => rfl
  | [b0, b1, b2] => rfl
  | [b0, b1, b2, b3] => rfl
  | [b0, b1, b2, b3, b4] => rfl
  | [b0, b1, b2, b3, b4, b5] => rfl
  | [b0, b1, b2, b3, b4, b5, b6] => rfl

theorem encodeSyms_lt (nrem : Nat) (l : List Nat) (hrem : nrem ≤ 10) :
    ∀ d ∈ encodeSyms nrem l, d < 85 := by
  by_cases h8 : 8 ≤ l.length
  · rw [encodeSyms_ge8 nrem l h8]
    intro d hd
    rcases List.mem_append.mp hd with hd | hd
    · exact beDigits_lt 85 10 _ (by norm_num) d hd
    · have hlt : (l.drop 8).length < l.length := by
        simp only [List.length_drop]
        omega
      exact encodeSyms_lt nrem (l.drop 8) hrem d hd
  · by_cases hnil : l = []
    · subst hnil
      simp [encodeSyms]
    · rw [encodeSyms_small nrem l hnil (by omega)]
      exact beDigits_lt 85 nrem _ (by norm_num)
termination_by l.length

theorem outLen_mod8 (n : Nat) (h : 8 ≤ n) : outLen n % 10 = outLen (n - 8) % 10 := by
  unfold outLen
  split <;> split <;> omega

/-- The remainder-chunk facts for each byte count 1..7: the symbol count is
between 2 and 9, the symbols can carry the bytes, and the decoder's
`rem_bytes` recovers exactly the byte count. -/
theorem remainder_facts : ∀ k, k < 8 → 1 ≤ k →
    (2 ≤ outLen k % 10 ∧ outLen k % 10 ≤ 9 ∧ (256:Nat) ^ k ≤ 85 ^ (outLen k % 10) ∧
      (if outLen k % 10 ≤ 5 then outLen k % 10 - 1 else outLen k % 10 - 2) = k) := by
  decide

/-- Decoding the encoder's symbol stream recovers the input bytes, for any
already-accumulated output prefix. -/
theorem decode_encode_aux (b out : List Nat) (hb : ∀ x ∈ b, x < 256) :
    decodeFinish ((encodeSyms (outLen b.length % 10) b).foldl stepD (0, 0, out)) = out ++ b := by
  by_cases h8 : 8 ≤ b.length
  · rw [encodeSyms_ge8 _ _ h8, List.foldl_append]
    have htake : (b.take 8).length = 8 := by
      simp only [List.length_take]
      omega
    have hbtake : ∀ x ∈ b.take 8, x < 256 := fun x hx => hb x (List.take_subset _ _ hx)
    have hv : bytesToNat (b.take 8) < 2 ^ 64 := by
      have hlt := bytesToNat_lt (b.take 8) hbtake
      rw [htake] at hlt
      calc bytesToNat (b.take 8) < 256 ^ 8 := hlt
        _ = 2 ^ 64 := by norm_num
    rw [foldl_stepD_chunk _ _ hv]
    have hbeq : beDigits 256 8 (bytesToNat (b.take 8)) = b.take 8 := by
      have he := beDigits_bytesToNat (b.take 8) hbtake
      rw [htake] at he
      exact he
    rw [hbeq]
    have hmod : outLen b.length % 10 = outLen (b.drop 8).length % 10 := by
      rw [List.length_drop]
      exact outLen_mod8 _ h8
    have hlt : (b.drop 8).length < b.length := by
      simp only [List.length_drop]
      omega
    rw [hmod, decode_encode_aux (b.drop 8) (out ++ b.take 8)
      (fun x hx => hb x (List.drop_subset _ _ hx))]
    rw [List.append_assoc, List.take_append_drop]
  · by_cases hnil : b = []
    · subst hnil
      simp [encodeSyms, decodeFinish]
    · have h1 : 1 ≤ b.length := List.length_pos.mpr hnil
      have h7 : b.length < 8 := by omega
      rw [encodeSyms_small _ _ hnil h7]
      obtain ⟨h2, h9, hpow, hrem⟩ := remainder_facts b.length h7 h1
      have hv256 : bytesToNat b < 256 ^ b.length := bytesToNat_lt b hb
      have hv85 : bytesToNat b < 85 ^ (outLen b.length % 10) := lt_of_lt_of_le hv256 hpow
      have hv64 : bytesToNat b < 2 ^ 64 := by
        calc bytesToNat b < 256 ^ b.length := hv256
          _ ≤ 256 ^ 7 := Nat.pow_le_pow_right (by norm_num) (by omega)
          _ < 2 ^ 64 := by norm_num
      rw [foldl_stepD_low _ _ _ _ (by rw [beDigits_length]; omega)]
      rw [accum85_toSym _ _ hv85 hv64]
      simp only [decodeFinish, beDigits_length, Nat.zero_add]
      rw [if_pos (by omega : (1:Nat) < outLen b.length % 10)]
      rw [hrem, beDigits_drop b (by omega) hb]
termination_by b.length

end base85

/-- C3: for every byte sequence `b` — empty, single bytes, exact multiples of
8 and arbitrary lengths alike — `base85.decode (base85.encode b) = b`. -/
theorem spec_C3_base85_round_trip (b : List Nat) (hb : ∀ x ∈ b, x < 256) :
    base85.decode (base85.encode b) = b := by
  unfold base85.encode base85.decode
  rw [base85.foldl_decodeStep_map _ _
    (base85.encodeSyms_lt _ b (Nat.le_of_lt (Nat.mod_lt _ (by norm_num))))]
  have h := base85.decode_encode_aux b [] hb
  simpa using h

/-- C3 witness: the round trip evaluated at a concrete 5-byte sequence (a
non-multiple of the 8-byte chunk size, exercising the remainder path). -/
theorem spec_C3_base85_round_trip_witness :
    (∀ x ∈ [0, 255, 7, 128, 31], x < 256) ∧
      base85.decode (base85.encode [0, 255, 7, 128, 31]) = [0, 255, 7, 128, 31] :=
  ⟨by decide, spec_C3_base85_round_trip [0, 255, 7, 128, 31] (by decide)⟩

end Staticimp
